import Mathlib

/-!
Verification of the `platform-cli` core: the plugin dependency resolver
(`src/plugins/registry.js`) and the template rendering pipeline
(`src/templates/processor.js`), shallowly embedded in Lean 4.

The registry is the JS `Map` of plugin name to plugin, embedded as an
association list in insertion order.  General recursion in the JS resolver
is embedded with an explicit fuel argument; `none` marks fuel exhaustion
(the embedding's image of non-termination / stack overflow), and we prove
that a fuel of the registry size always suffices.
-/

namespace PlatformCli

/-- A plugin as the registry sees it: `getName()`, `getVersion()`,
`getDependencies()`. -/
structure Plugin where
  name : String
  version : String
  dependencies : List String
  deriving DecidableEq, Repr

/-- The registry's `Map<string, Plugin>` in insertion order. -/
abbrev Registry := List (String × Plugin)

/-- `Map.get` on the association list (keys are unique once built through
`register`, so first match is the match). -/
def lookupReg (reg : Registry) (n : String) : Option Plugin :=
  match reg with
  | [] => none
  | (k, p) :: rest => if k = n then some p else lookupReg rest n

/-- `hasPlugin(name)`. -/
def hasPlugin (reg : Registry) (n : String) : Bool :=
  (lookupReg reg n).isSome

/-- `register(plugin)`: fails on a duplicate name, otherwise appends the
binding (JS `Map.set` of a fresh key preserves insertion order). -/
def register (reg : Registry) (p : Plugin) : Except String Registry :=
  if hasPlugin reg p.name then
    Except.error ("Plugin with name \"" ++ p.name ++ "\" is already registered")
  else
    Except.ok (reg ++ [(p.name, p)])

/-- The mutable state of `getPluginsInDependencyOrder`: the `visited` set and
the `result` array (both kept as lists; `visited` in reverse insertion
order, which only membership ever inspects). -/
structure St where
  visited : List String
  result : List String
  deriving DecidableEq, Repr

/-- Sequencing of a visit step over a list of names (the `for` loops of
`getPluginsInDependencyOrder`, both over `pluginNames` and over a plugin's
dependency list), threading the mutable state. -/
def visitList (visit1 : String → St → Option St) : List String → St → Option St
  | [], s => some s
  | n :: rest, s =>
    match visit1 n s with
    | none => none
    | some s' => visitList visit1 rest s'

/-- The recursive `visit` closure of `getPluginsInDependencyOrder`.  `f` is
fuel for the recursion into a plugin's dependency list; `none` marks fuel
exhaustion (the JS function's only way to not return is unbounded
recursion, which the fuel bounds). -/
def visit (reg : Registry) : Nat → String → St → Option St
  | f, n, s =>
    if n ∈ s.visited then
      some s
    else
      let s1 : St := ⟨n :: s.visited, s.result⟩
      match lookupReg reg n with
      | none => some s1
      | some p =>
        match f with
        | 0 => none
        | fdep + 1 =>
          match visitList (visit reg fdep) p.dependencies s1 with
          | none => none
          | some s2 =>
            some (if n ∈ s2.result then s2 else ⟨s2.visited, s2.result ++ [n]⟩)

/-- `getPluginsInDependencyOrder(pluginNames)`: run the visits from the
empty state with fuel the registry size (proved sufficient below). -/
def getPluginsInDependencyOrder (reg : Registry) (pluginNames : List String) :
    Option (List String) :=
  (visitList (visit reg reg.length) pluginNames ⟨[], []⟩).map St.result

/-- The errors `resolveDependencies` can throw. -/
inductive RegErr where
  | circular : String → RegErr
  | notFound : String → RegErr
  | unresolved : String → String → RegErr
  deriving DecidableEq, Repr

/-- The `for (const dep of dependencies)` loop of `resolveDependencies`:
check each dependency of `parent` in declared order, with `check1` the
recursive call on one dependency.  The first thrown error aborts the
loop. -/
def resolveList (reg : Registry) (check1 : String → Option (Except RegErr Unit))
    (parent : String) : List String → Option (Except RegErr Unit)
  | [] => some (Except.ok ())
  | d :: rest =>
    if hasPlugin reg d then
      match check1 d with
      | none => none
      | some (Except.error e) => some (Except.error e)
      | some (Except.ok ()) => resolveList reg check1 parent rest
    else
      some (Except.error (RegErr.unresolved d parent))

/-- `resolveDependencies(name, visited)`.  The JS passes each recursive call
a fresh copy of `visited` with `name` added (`new Set(visited)` after
`visited.add(name)`), so `visited` is exactly the chain of ancestors;
`getPlugin` throws `notFound` on an unregistered name.  `f` is fuel for the
recursion; `none` marks fuel exhaustion. -/
def resolveDependencies (reg : Registry) : Nat → String → List String →
    Option (Except RegErr Unit)
  | f, name, visited =>
    if name ∈ visited then
      some (Except.error (RegErr.circular name))
    else
      match lookupReg reg name with
      | none => some (Except.error (RegErr.notFound name))
      | some p =>
        match f with
        | 0 => none
        | fdep + 1 =>
          resolveList reg (fun d => resolveDependencies reg fdep d (name :: visited))
            name p.dependencies

/-!
## Template rendering pipeline (`src/templates/processor.js`)

Strings are embedded as `List Char` (one JS string code unit per entry;
file bytes and their UTF-8 decoding are identified, which is the "modulo
declared encoding" reading).  The lodash `template(...)(context)` call is an
external library; it is embedded as an abstract parameter `interp` that
either returns the interpolated text or throws (returns an error message),
which is all `processFile` observes of it through its `try`/`catch`.
-/

/-- The rendering context built by the generate command: `name`,
`outputDir`, `packageName`, `templateName`.  JS truthiness of the string
fields (`if (context.packageName)`) is emptiness here. -/
structure Ctx where
  name : List Char
  outputDir : List Char
  packageName : List Char
  templateName : List Char
  deriving DecidableEq, Repr

/-- The lodash `template(text, interpolateOpts)(context)` call: abstract;
`Except.error m` is a thrown exception with message `m`. -/
abbrev Interp := Ctx → List Char → Except (List Char) (List Char)

/-- The `logger.warn` records that `processFile` can emit from its inner
`try`/`catch` blocks around interpolation. -/
inductive Warn where
  | pathInterp (path msg : List Char)
  | contentInterp (file msg : List Char)
  deriving DecidableEq, Repr

/-- JS `s.includes(pat)` (contiguous substring test). -/
def containsSub (pat : List Char) : List Char → Bool
  | [] => pat.isEmpty
  | c :: rest => pat.isPrefixOf (c :: rest) || containsSub pat rest

/-- Fuel-indexed worker for `replaceAll`; one unit of fuel per character
consumed, so fuel `s.length` always suffices (the `0, s => s` branch is
unreachable from `replaceAll`). -/
def replaceAllF (pat rep : List Char) : Nat → List Char → List Char
  | _, [] => []
  | 0, s => s
  | f + 1, c :: rest =>
    if pat.isPrefixOf (c :: rest) then
      rep ++ replaceAllF pat rep f (List.drop (pat.length - 1) rest)
    else
      c :: replaceAllF pat rep f rest

/-- JS `s.replace(/pat/g, rep)` for a literal pattern: replace every
non-overlapping occurrence, scanning left to right. -/
def replaceAll (pat rep s : List Char) : List Char :=
  replaceAllF pat rep s.length s

/-- JS `s.replace(pat, rep)` with a string pattern: replace only the first
occurrence. -/
def replaceFirst (pat rep : List Char) : List Char → List Char
  | [] => []
  | c :: rest =>
    if pat.isPrefixOf (c :: rest) then
      rep ++ List.drop (pat.length - 1) rest
    else
      c :: replaceFirst pat rep rest

/-- JS `packageName.replace(/\./g, '/')`. -/
def dotsToSlashes (s : List Char) : List Char :=
  s.map (fun c => if c = '.' then '/' else c)

/-- The `'{{'` token of the interpolation guard. -/
def openTok : List Char := "\x7b\x7b".toList

/-- The `'}}'` token of the interpolation guard. -/
def closeTok : List Char := "\x7d\x7d".toList

/-- The literal `${projectName}` token. -/
def projNameTok : List Char := "$\x7bprojectName\x7d".toList

/-- The literal `${packageName}` token. -/
def pkgNameTok : List Char := "$\x7bpackageName\x7d".toList

/-- The literal `__packageDir__` token. -/
def pkgDirTok : List Char := "__packageDir__".toList

/-- Node `path.basename` for the forward-slash file paths of a template
tree (template entries name files, so no trailing separators arise). -/
def basenameOf (p : List Char) : List Char :=
  p.foldl (fun acc c => if c = '/' then [] else acc ++ [c]) []

/-- Node `path.extname`: the suffix of the basename from its last dot; empty
when the basename has no dot or only a leading dot. -/
def extnameOf (p : List Char) : List Char :=
  let b := basenameOf p
  let pre := b.reverse.takeWhile (fun c => c ≠ '.')
  if pre.length = b.length then []
  else if pre.length + 1 = b.length then []
  else '.' :: pre.reverse

/-- The `textExtensions` table of `isTextFile`. -/
def textExtensions : List (List Char) :=
  [".txt", ".md", ".html", ".css", ".scss", ".less", ".js", ".jsx", ".ts",
   ".tsx", ".json", ".xml", ".yaml", ".yml", ".properties", ".conf",
   ".config", ".java", ".kt", ".groovy", ".gradle", ".py", ".rb", ".php",
   ".c", ".cpp", ".h", ".cs", ".go", ".rs", ".swift", ".sh", ".bat",
   ".ps1"].map String.toList

/-- The `textFileNames` table of `isTextFile`. -/
def textFileNames : List (List Char) :=
  ["dockerfile", "jenkinsfile", "makefile", "readme", "license",
   ".gitignore", ".dockerignore", ".npmignore", ".npmrc", ".env",
   ".env.example"].map String.toList

/-- `isTextFile(filePath)`: known textual extension, else well-known
extensionless basename. -/
def isTextFile (filePath : List Char) : Bool :=
  let ext := (extnameOf filePath).map Char.toLower
  if textExtensions.contains ext then
    true
  else
    textFileNames.contains ((basenameOf filePath).map Char.toLower)

/-- The path-rewriting half of `processFile` (lines 49–68): interpolation
behind the `includes('{{') && includes('}}')` guard with its `try`/`catch`,
then the `__packageDir__` substitution behind the
`context.packageName && includes('__packageDir__')` guard. -/
def processPath (interp : Interp) (ctx : Ctx) (file : List Char) :
    List Char × List Warn :=
  let outputPath := file
  let step1 : List Char × List Warn :=
    if containsSub openTok outputPath && containsSub closeTok outputPath then
      match interp ctx outputPath with
      | Except.ok s => (s, [])
      | Except.error m => (outputPath, [Warn.pathInterp outputPath m])
    else
      (outputPath, [])
  let outputPath := step1.1
  let outputPath :=
    if !ctx.packageName.isEmpty && containsSub pkgDirTok outputPath then
      replaceFirst pkgDirTok (dotsToSlashes ctx.packageName) outputPath
    else
      outputPath
  (outputPath, step1.2)

/-- The text-content half of `processFile` (lines 75–99): guarded
interpolation with its `try`/`catch`, then the global `${packageName}`
replacement, then the global `${projectName}` replacement. -/
def processContent (interp : Interp) (ctx : Ctx) (file content : List Char) :
    List Char × List Warn :=
  let textContent := content
  let step1 : List Char × List Warn :=
    if containsSub openTok textContent && containsSub closeTok textContent then
      match interp ctx textContent with
      | Except.ok s => (s, [])
      | Except.error m => (textContent, [Warn.contentInterp file m])
    else
      (textContent, [])
  let textContent := step1.1
  let textContent :=
    if !ctx.packageName.isEmpty then
      replaceAll pkgNameTok ctx.packageName textContent
    else
      textContent
  let textContent :=
    if !ctx.name.isEmpty then
      replaceAll projNameTok ctx.name textContent
    else
      textContent
  (textContent, step1.2)

/-- What one `processFile` call writes: the rewritten relative path, the
written content (rewritten text or raw bytes), and the warnings logged. -/
structure Rendered where
  outputPath : List Char
  output : List Char
  warnings : List Warn
  deriving DecidableEq, Repr

/-- `processFile(file, context, templateSource)`: `none` content models
`getFileContent` throwing, which the outer `catch` rethrows (aborting the
run); otherwise rewrite the path, then rewrite the content when the file
is text, else copy the bytes as-is. -/
def processFile (interp : Interp) (ctx : Ctx) (file : List Char)
    (content : Option (List Char)) : Except (List Char) Rendered :=
  match content with
  | none => Except.error ("Failed to process file ".toList ++ file)
  | some content =>
    let pr := processPath interp ctx file
    if isTextFile file then
      let cr := processContent interp ctx file content
      Except.ok ⟨pr.1, cr.1, pr.2 ++ cr.2⟩
    else
      Except.ok ⟨pr.1, content, pr.2⟩

/-!
## Registry lemmas

`countNew reg visited` counts the registry entries whose key is not yet
visited; it bounds the recursion depth of both `visit` and
`resolveDependencies` and so justifies the fuel `reg.length`.
-/

/-- The dependency list the resolver reads for `n`: `getDependencies()` of
the registered plugin, nothing for an unregistered name. -/
def depsIn (reg : Registry) (n : String) : List String :=
  match lookupReg reg n with
  | some p => p.dependencies
  | none => []

/-- Registry entries not yet visited. -/
def countNew (reg : Registry) (visited : List String) : Nat :=
  (reg.filter (fun e => !decide (e.1 ∈ visited))).length

/-- `resolveDependencies(name)` as callers invoke it: default `visited`
is the empty set; fuel is the registry size (proved sufficient below). -/
def resolveDependenciesTop (reg : Registry) (name : String) :
    Option (Except RegErr Unit) :=
  resolveDependencies reg reg.length name []

/-- `VisitOut reg s s'` collects the hypothesis-free facts about a
completed (burst of) visit call(s): the visited set only grows, new result
entries were unvisited before and are registered, `Nodup` and
"result ⊆ visited" are preserved. -/
def VisitOut (reg : Registry) (s s' : St) : Prop :=
  (∀ m ∈ s.visited, m ∈ s'.visited) ∧
  (∀ m ∈ s'.result, m ∈ s.result ∨ m ∉ s.visited) ∧
  (s.result.Nodup → s'.result.Nodup) ∧
  (∀ m ∈ s'.result, m ∈ s.result ∨ hasPlugin reg m = true) ∧
  ((∀ m ∈ s.result, m ∈ s.visited) → ∀ m ∈ s'.result, m ∈ s'.visited)

/-- Dependency-before-dependent ordering of a name list: wherever the list
splits as `l₁ ++ m :: l₂`, every registered dependency of `m` already
occurs strictly before `m`, i.e. in `l₁`. -/
def orderedDeps (reg : Registry) (l : List String) : Prop :=
  ∀ l₁ m l₂, l = l₁ ++ m :: l₂ →
    ∀ d ∈ depsIn reg m, hasPlugin reg d = true → d ∈ l₁

/-- The traversal invariant of `getPluginsInDependencyOrder`, with `E` the
names currently being expanded on the call stack (visited but legitimately
not yet appended). -/
def InvE (reg : Registry) (E : List String) (s : St) : Prop :=
  s.result.Nodup ∧
  (∀ m ∈ s.result, m ∈ s.visited) ∧
  (∀ m ∈ s.result, hasPlugin reg m = true) ∧
  (∀ m ∈ s.visited, hasPlugin reg m = true → m ∈ s.result ∨ m ∈ E) ∧
  orderedDeps reg s.result

/-- Reachability along declared dependency edges through registered
plugins: `DepPath reg n m` holds when `m` is `n` itself or a direct or
transitive dependency of `n`. -/
inductive DepPath (reg : Registry) : String → String → Prop where
  | refl (n : String) : DepPath reg n n
  | step {n d m : String} {p : Plugin} (h : lookupReg reg n = some p)
      (hd : d ∈ p.dependencies) (tail : DepPath reg d m) : DepPath reg n m

/-!
### Spec-side decomposition of content rewriting (§4.1)

These three definitions transcribe the spec's description of the content
pass — form 1 (expression interpolation), then the two literal tokens —
to be compared with `processContent` from the source.
-/

/-- Spec §4.1 form 1 on content: evaluate `\x7b\x7b..\x7d\x7d` spans when
present; on failure keep the text (recoverable warning). -/
def contentInterpStage (interp : Interp) (ctx : Ctx) (c : List Char) :
    List Char :=
  if containsSub openTok c && containsSub closeTok c then
    match interp ctx c with
    | Except.ok s => s
    | Except.error _ => c
  else
    c

/-- Spec §4.1 form 2, `${packageName}`: replaced verbatim when the field is
non-empty. -/
def packageNameStage (ctx : Ctx) (c : List Char) : List Char :=
  if !ctx.packageName.isEmpty then replaceAll pkgNameTok ctx.packageName c
  else c

/-- Spec §4.1 form 2, `${projectName}`: replaced verbatim when the field is
non-empty. -/
def projectNameStage (ctx : Ctx) (c : List Char) : List Char :=
  if !ctx.name.isEmpty then replaceAll projNameTok ctx.name c
  else c

/-!
### Concrete plugins, registries and contexts used by the witnesses
-/

/-- Plugin `a` depending on `b`. -/
def pluginA : Plugin := ⟨"a", "1.0.0", ["b"]⟩

/-- Plugin `b` depending back on `a` (cycle mate of `pluginA`). -/
def pluginB : Plugin := ⟨"b", "1.0.0", ["a"]⟩

/-- Plugin `b` with no dependencies. -/
def pluginB0 : Plugin := ⟨"b", "1.0.0", []⟩

/-- Plugin `a` depending on itself and on the unregistered `x`. -/
def pluginAX : Plugin := ⟨"a", "1.0.0", ["a", "x"]⟩

/-- Plugin `b` depending on the unregistered `x`. -/
def pluginBX : Plugin := ⟨"b", "1.0.0", ["x"]⟩

/-- A registry whose graph is the two-cycle `a ↔ b`. -/
def cycleReg : Registry := [("a", pluginA), ("b", pluginB)]

/-- An acyclic registry: `a` depends on `b`, `b` on nothing. -/
def chainReg : Registry := [("a", pluginA), ("b", pluginB0)]

/-- A registry with a self-loop on `a` that also references the
unregistered `x`. -/
def selfLoopReg : Registry := [("a", pluginAX)]

/-- An acyclic registry reaching the unregistered name `x`:
`a → b → x`. -/
def missingDepReg : Registry := [("a", pluginA), ("b", pluginBX)]

/-- The context of the spec's §8 examples: name `orders-api`, package
`com.acme.orders`. -/
def ordersCtx : Ctx :=
  ⟨"orders-api".toList, "/out/orders-api".toList, "com.acme.orders".toList,
   "java-spring".toList⟩

/-- An interpolator that always succeeds without changing the text. -/
def interpId : Interp := fun _ s => Except.ok s

/-- An interpolator that always throws. -/
def interpBoom : Interp := fun _ _ => Except.error "boom".toList

theorem lookupReg_mem {reg : Registry} {n : String} {p : Plugin}
    (h : lookupReg reg n = some p) : (n, p) ∈ reg := by
  induction reg with
  | nil => simp [lookupReg] at h
  | cons e rest ih =>
    obtain ⟨k, q⟩ := e
    rw [lookupReg] at h
    by_cases hk : k = n
    · simp only [hk, if_true, Option.some.injEq] at h
      subst hk
      subst h
      exact List.mem_cons_self _ _
    · simp only [hk, if_false] at h
      exact List.mem_cons_of_mem _ (ih h)

theorem mem_lookupReg {reg : Registry} {n : String} {p : Plugin}
    (h : (n, p) ∈ reg) : ∃ q, lookupReg reg n = some q := by
  induction reg with
  | nil => simp at h
  | cons e rest ih =>
    rw [lookupReg]
    by_cases hk : e.1 = n
    · exact ⟨e.2, by simp [hk]⟩
    · rcases List.mem_cons.1 h with he | hm
      · subst he
        simp at hk
      · simpa [hk] using ih hm

theorem hasPlugin_of_lookup {reg : Registry} {n : String} {p : Plugin}
    (h : lookupReg reg n = some p) : hasPlugin reg n = true := by
  simp [hasPlugin, h]

theorem lookup_of_hasPlugin {reg : Registry} {n : String}
    (h : hasPlugin reg n = true) : ∃ p, lookupReg reg n = some p := by
  simp [hasPlugin, Option.isSome_iff_exists] at h
  exact h

theorem countNew_mono {reg : Registry} {v w : List String}
    (h : ∀ x, x ∈ v → x ∈ w) : countNew reg w ≤ countNew reg v :=
  List.Sublist.length_le
    (List.monotone_filter_right reg (fun a ha => by
      simp only [Bool.not_eq_true', decide_eq_false_iff_not] at ha ⊢
      exact fun hv => ha (h _ hv)))

theorem countNew_lt {reg : Registry} {n : String} {p : Plugin}
    {v : List String} (hl : lookupReg reg n = some p) (hv : n ∉ v) :
    countNew reg (n :: v) < countNew reg v := by
  induction reg with
  | nil => simp [lookupReg] at hl
  | cons e rest ih =>
    rw [lookupReg] at hl
    by_cases hk : e.1 = n
    · have hv' : (!decide (e.1 ∈ v)) = true := by
        simp only [Bool.not_eq_true', decide_eq_false_iff_not]
        rw [hk]
        exact hv
      have hmem : (!decide (e.1 ∈ n :: v)) = false := by
        simp only [Bool.not_eq_false', decide_eq_true_eq]
        rw [hk]
        exact List.mem_cons_self _ _
      simp only [countNew, List.filter_cons, hv', hmem, if_true]
      simp only [Bool.false_eq_true, if_false, List.length_cons]
      have hmono : countNew rest (n :: v) ≤ countNew rest v :=
        countNew_mono (fun x hx => List.mem_cons_of_mem _ hx)
      simp only [countNew] at hmono
      omega
    · simp only [hk, if_false] at hl
      have hrest := ih hl
      have hiff : (e.1 ∈ n :: v) ↔ (e.1 ∈ v) := by
        constructor
        · intro hx
          rcases List.mem_cons.1 hx with h1 | h1
          · exact absurd h1 hk
          · exact h1
        · exact fun hx => List.mem_cons_of_mem _ hx
      have hsame : (!decide (e.1 ∈ n :: v)) = (!decide (e.1 ∈ v)) := by
        rw [decide_eq_decide.mpr hiff]
      simp only [countNew, List.filter_cons, hsame] at hrest ⊢
      by_cases he : (!decide (e.1 ∈ v)) = true
      · rw [if_pos he, if_pos he]
        simp only [List.length_cons]
        omega
      · rw [if_neg he, if_neg he]
        omega

theorem countNew_le_length (reg : Registry) (v : List String) :
    countNew reg v ≤ reg.length :=
  List.length_filter_le _ _

theorem countNew_pos {reg : Registry} {n : String} {p : Plugin}
    {v : List String} (hl : lookupReg reg n = some p) (hv : n ∉ v) :
    0 < countNew reg v :=
  Nat.lt_of_le_of_lt (Nat.zero_le _) (countNew_lt hl hv)

/-!
### Unfolding equations for `visit`
-/

theorem visit_eq_of_visited (reg : Registry) (f : Nat) {n : String} {s : St}
    (h : n ∈ s.visited) : visit reg f n s = some s := by
  simp [visit, h]

theorem visit_eq_of_none (reg : Registry) (f : Nat) {n : String} {s : St}
    (h : n ∉ s.visited) (hl : lookupReg reg n = none) :
    visit reg f n s = some ⟨n :: s.visited, s.result⟩ := by
  simp [visit, h, hl]

theorem visit_zero_eq (reg : Registry) {n : String} {s : St} {p : Plugin}
    (h : n ∉ s.visited) (hl : lookupReg reg n = some p) :
    visit reg 0 n s = none := by
  simp [visit, h, hl]

theorem visit_succ_eq (reg : Registry) (f : Nat) {n : String} {s : St}
    {p : Plugin} (h : n ∉ s.visited) (hl : lookupReg reg n = some p) :
    visit reg (f + 1) n s =
      match visitList (visit reg f) p.dependencies ⟨n :: s.visited, s.result⟩ with
      | none => none
      | some s2 =>
        some (if n ∈ s2.result then s2 else ⟨s2.visited, s2.result ++ [n]⟩) := by
  simp [visit, h, hl]

theorem VisitOut.rfl (reg : Registry) (s : St) : VisitOut reg s s :=
  ⟨fun _ h => h, fun _ h => Or.inl h, id, fun _ h => Or.inl h, fun h => h⟩

theorem VisitOut.comp {reg : Registry} {s t u : St}
    (h1 : VisitOut reg s t) (h2 : VisitOut reg t u) : VisitOut reg s u := by
  obtain ⟨m1, r1, n1, g1, c1⟩ := h1
  obtain ⟨m2, r2, n2, g2, c2⟩ := h2
  refine ⟨fun m hm => m2 m (m1 m hm), ?_, fun h => n2 (n1 h), ?_, ?_⟩
  · intro m hm
    rcases r2 m hm with h | h
    · exact r1 m h
    · exact Or.inr (fun hv => h (m1 m hv))
  · intro m hm
    rcases g2 m hm with h | h
    · exact g1 m h
    · exact Or.inr h
  · intro h
    exact c2 (c1 h)

theorem visitList_out {reg : Registry} {visit1 : String → St → Option St}
    (hb : ∀ n s s', visit1 n s = some s' →
      VisitOut reg s s' ∧ n ∈ s'.visited) :
    ∀ ns s s', visitList visit1 ns s = some s' →
      VisitOut reg s s' ∧ ∀ x ∈ ns, x ∈ s'.visited := by
  intro ns
  induction ns with
  | nil =>
    intro s s' h
    simp [visitList] at h
    subst h
    exact ⟨VisitOut.rfl reg _, by simp⟩
  | cons n rest ih =>
    intro s s' h
    rw [visitList] at h
    cases ht : visit1 n s with
    | none => rw [ht] at h; cases h
    | some t =>
      rw [ht] at h
      obtain ⟨o1, hn1⟩ := hb n s t ht
      obtain ⟨o2, hrest⟩ := ih t s' h
      refine ⟨o1.comp o2, ?_⟩
      intro x hx
      rcases List.mem_cons.1 hx with hx | hx
      · subst hx
        exact o2.1 x hn1
      · exact hrest x hx

theorem visit_out (reg : Registry) :
    ∀ f n s s', visit reg f n s = some s' →
      VisitOut reg s s' ∧ n ∈ s'.visited := by
  intro f
  induction f with
  | zero =>
    intro n s s' h
    by_cases hv : n ∈ s.visited
    · rw [visit_eq_of_visited reg 0 hv] at h
      cases h
      exact ⟨VisitOut.rfl reg _, hv⟩
    · cases hl : lookupReg reg n with
      | none =>
        rw [visit_eq_of_none reg 0 hv hl] at h
        cases h
        refine ⟨⟨fun m hm => List.mem_cons_of_mem _ hm, fun m hm => Or.inl hm,
          id, fun m hm => Or.inl hm, ?_⟩, List.mem_cons_self _ _⟩
        intro hc m hm
        exact List.mem_cons_of_mem _ (hc m hm)
      | some p =>
        rw [visit_zero_eq reg hv hl] at h
        cases h
  | succ f ih =>
    intro n s s' h
    by_cases hv : n ∈ s.visited
    · rw [visit_eq_of_visited reg (f + 1) hv] at h
      cases h
      exact ⟨VisitOut.rfl reg _, hv⟩
    · cases hl : lookupReg reg n with
      | none =>
        rw [visit_eq_of_none reg (f + 1) hv hl] at h
        cases h
        refine ⟨⟨fun m hm => List.mem_cons_of_mem _ hm, fun m hm => Or.inl hm,
          id, fun m hm => Or.inl hm, ?_⟩, List.mem_cons_self _ _⟩
        intro hc m hm
        exact List.mem_cons_of_mem _ (hc m hm)
      | some p =>
        rw [visit_succ_eq reg f hv hl] at h
        cases h2 : visitList (visit reg f) p.dependencies ⟨n :: s.visited, s.result⟩ with
        | none => rw [h2] at h; cases h
        | some s2 =>
          rw [h2] at h
          dsimp only at h
          obtain ⟨o2, hdeps⟩ := visitList_out ih p.dependencies _ s2 h2
          have hout1 : VisitOut reg s ⟨n :: s.visited, s.result⟩ :=
            ⟨fun m hm => List.mem_cons_of_mem _ hm, fun m hm => Or.inl hm,
             id, fun m hm => Or.inl hm,
             fun hc m hm => List.mem_cons_of_mem _ (hc m hm)⟩
          have hnvis : n ∈ s2.visited := o2.1 n (List.mem_cons_self _ _)
          by_cases hr : n ∈ s2.result
          · rw [if_pos hr] at h
            cases h
            exact ⟨hout1.comp o2, hnvis⟩
          · rw [if_neg hr] at h
            cases h
            have o12 : VisitOut reg s s2 := hout1.comp o2
            obtain ⟨m12, r12, n12, g12, c12⟩ := o12
            refine ⟨⟨fun m hm => m12 m hm, ?_, ?_, ?_, ?_⟩, hnvis⟩
            · intro m hm
              rcases List.mem_append.1 hm with hm | hm
              · exact r12 m hm
              · have : m = n := by simpa using hm
                subst this
                exact Or.inr hv
            · intro hnd
              have h2nd : s2.result.Nodup := n12 hnd
              simp [List.nodup_append, h2nd, hr]
            · intro m hm
              rcases List.mem_append.1 hm with hm | hm
              · exact g12 m hm
              · have : m = n := by simpa using hm
                subst this
                exact Or.inr (hasPlugin_of_lookup hl)
            · intro hc m hm
              rcases List.mem_append.1 hm with hm | hm
              · exact c12 hc m hm
              · have : m = n := by simpa using hm
                subst this
                exact hnvis

/-!
### Fuel sufficiency: `reg.length` fuel always completes the traversal

Each recursion into a dependency list is guarded by "the current name is
registered and freshly visited", so the recursion depth is bounded by
`countNew reg visited`, which starts at most `reg.length`.
-/

theorem visitList_some {reg : Registry} {visit1 : String → St → Option St}
    {f : Nat}
    (hmono : ∀ n s s', visit1 n s = some s' → ∀ m ∈ s.visited, m ∈ s'.visited)
    (hsome : ∀ n s, countNew reg s.visited ≤ f → ∃ s', visit1 n s = some s') :
    ∀ ns s, countNew reg s.visited ≤ f →
      ∃ s', visitList visit1 ns s = some s' := by
  intro ns
  induction ns with
  | nil =>
    intro s _
    exact ⟨s, rfl⟩
  | cons n rest ih =>
    intro s hc
    obtain ⟨t, ht⟩ := hsome n s hc
    have hct : countNew reg t.visited ≤ f :=
      le_trans (countNew_mono (hmono n s t ht)) hc
    obtain ⟨s', hs'⟩ := ih t hct
    refine ⟨s', ?_⟩
    rw [visitList, ht]
    exact hs'

theorem visit_some (reg : Registry) :
    ∀ f n s, countNew reg s.visited ≤ f → ∃ s', visit reg f n s = some s' := by
  intro f
  induction f with
  | zero =>
    intro n s hc
    by_cases hv : n ∈ s.visited
    · exact ⟨s, visit_eq_of_visited reg 0 hv⟩
    · cases hl : lookupReg reg n with
      | none => exact ⟨_, visit_eq_of_none reg 0 hv hl⟩
      | some p =>
        have := countNew_pos hl hv
        omega
  | succ f ih =>
    intro n s hc
    by_cases hv : n ∈ s.visited
    · exact ⟨s, visit_eq_of_visited reg (f + 1) hv⟩
    · cases hl : lookupReg reg n with
      | none => exact ⟨_, visit_eq_of_none reg (f + 1) hv hl⟩
      | some p =>
        have hlt : countNew reg (n :: s.visited) < countNew reg s.visited :=
          countNew_lt hl hv
        have hdep : countNew reg (St.visited ⟨n :: s.visited, s.result⟩) ≤ f := by
          simp only [St.visited]
          omega
        obtain ⟨s2, hs2⟩ := visitList_some
          (fun n' s' s'' h => (visit_out reg f n' s' s'' h).1.1)
          (fun n' s' hc' => ih n' s' hc')
          p.dependencies ⟨n :: s.visited, s.result⟩ hdep
        refine ⟨if n ∈ s2.result then s2 else ⟨s2.visited, s2.result ++ [n]⟩, ?_⟩
        rw [visit_succ_eq reg f hv hl, hs2]

/-- Every run of the ordering step completes: with fuel `reg.length` the
traversal returns a state whose result is duplicate-free, registered-only,
inside the visited set, and whose visited set covers the request. -/
theorem gpido_run (reg : Registry) (names : List String) :
    ∃ s', visitList (visit reg reg.length) names ⟨[], []⟩ = some s' ∧
      s'.result.Nodup ∧ (∀ m ∈ s'.result, hasPlugin reg m = true) ∧
      (∀ x ∈ names, x ∈ s'.visited) ∧ (∀ m ∈ s'.result, m ∈ s'.visited) := by
  obtain ⟨s', hs'⟩ := @visitList_some reg (visit reg reg.length) reg.length
    (fun n s t h => (visit_out reg reg.length n s t h).1.1)
    (fun n s hc => visit_some reg reg.length n s hc)
    names ⟨[], []⟩ (by simpa using countNew_le_length reg [])
  obtain ⟨out, hcov⟩ :=
    visitList_out (fun n s t h => visit_out reg reg.length n s t h) names ⟨[], []⟩ s' hs'
  refine ⟨s', hs', out.2.2.1 List.nodup_nil, ?_, hcov, ?_⟩
  · intro m hm
    rcases out.2.2.2.1 m hm with h | h
    · simp at h
    · exact h
  · intro m hm
    exact out.2.2.2.2 (by simp) m hm

/-- C10: for every finite registry — cyclic graphs and dangling dependency
names included — and every request list, `getPluginsInDependencyOrder`
terminates without raising an error, and every name of the returned list is
a registered plugin name occurring at most once. -/
theorem getPluginsInDependencyOrder_total (reg : Registry) (names : List String) :
    ∃ l, getPluginsInDependencyOrder reg names = some l ∧ l.Nodup ∧
      ∀ m ∈ l, hasPlugin reg m = true := by
  obtain ⟨s', hs', hnd, hreg, _, _⟩ := gpido_run reg names
  exact ⟨s'.result, by simp [getPluginsInDependencyOrder, hs'], hnd, hreg⟩

/-- C5: a requested name that is not registered is simply absent from the
returned order; its presence in the request does not make the ordering
step fail. -/
theorem getPluginsInDependencyOrder_unknown_skipped (reg : Registry)
    (names : List String) (n : String)
    (hn : lookupReg reg n = none) (hmem : n ∈ names) :
    ∃ l, getPluginsInDependencyOrder reg names = some l ∧ n ∉ l := by
  obtain ⟨s', hs', _, hreg, _, _⟩ := gpido_run reg names
  refine ⟨s'.result, by simp [getPluginsInDependencyOrder, hs'], ?_⟩
  intro hin
  have := hreg n hin
  rw [hasPlugin, hn] at this
  simp at this

/-- C5 witness: requesting the unregistered `ghost` alongside `b` succeeds
and `ghost` is missing from the order. -/
theorem getPluginsInDependencyOrder_unknown_skipped_witness :
    ∃ l, getPluginsInDependencyOrder chainReg ["ghost", "b"] = some l ∧
      "ghost" ∉ l :=
  getPluginsInDependencyOrder_unknown_skipped chainReg ["ghost", "b"] "ghost"
    (by decide) (by decide)

/-- C1 (defect evidence): on the two-cycle `a ↔ b`, requesting `["a"]`
does not fail — `getPluginsInDependencyOrder` returns the list
`["b", "a"]`, because the ordering path never invokes the cycle check. -/
theorem getPluginsInDependencyOrder_cycle_returns_list :
    getPluginsInDependencyOrder cycleReg ["a"] = some ["b", "a"] := by decide

/-- C9: registering a plugin whose name is already a key fails with an
error naming the duplicate (and, the map being untouched on failure, a
registry with unique keys keeps unique keys through any successful
`register`). -/
theorem register_duplicate_rejected (reg : Registry) (p : Plugin) :
    (hasPlugin reg p.name = true →
      register reg p = Except.error
        ("Plugin with name \"" ++ p.name ++ "\" is already registered")) ∧
    (∀ reg', register reg p = Except.ok reg' →
      (reg.map Prod.fst).Nodup → (reg'.map Prod.fst).Nodup) := by
  constructor
  · intro h
    simp [register, h]
  · intro reg' h hnd
    rw [register] at h
    by_cases hd : hasPlugin reg p.name = true
    · simp [hd] at h
    · rw [if_neg hd] at h
      cases h
      have hnone : lookupReg reg p.name = none := by
        cases hl : lookupReg reg p.name with
        | none => rfl
        | some q => exact absurd (hasPlugin_of_lookup hl) hd
      have hnot : p.name ∉ reg.map Prod.fst := by
        intro hmem
        obtain ⟨e, he, hfst⟩ := List.mem_map.1 hmem
        obtain ⟨q, hq⟩ := @mem_lookupReg reg p.name e.2
          (by rw [← hfst]; exact he)
        rw [hnone] at hq
        cases hq
      rw [List.map_append]
      rw [List.nodup_append]
      refine ⟨hnd, by simp, ?_⟩
      intro a ha hb
      simp at hb
      subst hb
      exact hnot ha

/-- C9 witness: re-registering name `a` yields the duplicate error, and a
successful registration of the fresh name `b` keeps keys unique. -/
theorem register_duplicate_rejected_witness :
    register [("a", pluginA)] pluginA = Except.error
      ("Plugin with name \"" ++ pluginA.name ++ "\" is already registered") ∧
    ((([("a", pluginA)] : Registry) ++ [(pluginB0.name, pluginB0)]).map
      Prod.fst).Nodup := by
  constructor
  · exact (register_duplicate_rejected [("a", pluginA)] pluginA).1 (by decide)
  · exact (register_duplicate_rejected [("a", pluginA)] pluginB0).2
      ([("a", pluginA)] ++ [(pluginB0.name, pluginB0)]) rfl (by decide)

/-!
### Placeholder-engine lemmas
-/

theorem isPrefixOf_false_of_not_contains {pat s : List Char}
    (h : containsSub pat s = false) : pat.isPrefixOf s = false := by
  cases s with
  | nil =>
    rw [containsSub] at h
    cases pat with
    | nil => simp [List.isEmpty] at h
    | cons c cs => simp [List.isPrefixOf]
  | cons c rest =>
    rw [containsSub] at h
    exact (Bool.or_eq_false_iff.1 h).1

theorem containsSub_tail_false {pat : List Char} {c : Char} {rest : List Char}
    (h : containsSub pat (c :: rest) = false) : containsSub pat rest = false := by
  rw [containsSub] at h
  exact (Bool.or_eq_false_iff.1 h).2

theorem replaceAllF_not_contains {pat rep : List Char} :
    ∀ (s : List Char) (f : Nat), containsSub pat s = false →
      replaceAllF pat rep f s = s := by
  intro s
  induction s with
  | nil =>
    intro f _
    cases f <;> rfl
  | cons c rest ih =>
    intro f h
    have hpre := isPrefixOf_false_of_not_contains h
    have htail := containsSub_tail_false h
    cases f with
    | zero => rfl
    | succ f =>
      rw [replaceAllF]
      rw [hpre]
      simp only [Bool.false_eq_true, if_false]
      rw [ih f htail]

theorem replaceAll_not_contains {pat rep s : List Char}
    (h : containsSub pat s = false) : replaceAll pat rep s = s :=
  replaceAllF_not_contains s s.length h

theorem processContent_fst_no_placeholder (interp : Interp) (ctx : Ctx)
    (file c : List Char)
    (hbr : (containsSub openTok c && containsSub closeTok c) = false)
    (hpk : containsSub pkgNameTok c = false)
    (hpj : containsSub projNameTok c = false) :
    (processContent interp ctx file c).1 = c := by
  have e1 : replaceAll pkgNameTok ctx.packageName c = c :=
    replaceAll_not_contains hpk
  have e2 : replaceAll projNameTok ctx.name c = c :=
    replaceAll_not_contains hpj
  simp only [processContent, hbr, Bool.false_eq_true, if_false]
  simp [e1, e2]

/-- C7: a text-classified file whose content exhibits none of the
placeholder forms renders byte-identically: the write equals the input. -/
theorem processFile_no_placeholder_roundtrip (interp : Interp) (ctx : Ctx)
    (file c : List Char)
    (htext : isTextFile file = true)
    (hbr : (containsSub openTok c && containsSub closeTok c) = false)
    (hpk : containsSub pkgNameTok c = false)
    (hpj : containsSub projNameTok c = false)
    (hpd : containsSub pkgDirTok c = false) :
    ∃ r, processFile interp ctx file (some c) = Except.ok r ∧ r.output = c := by
  refine ⟨⟨(processPath interp ctx file).1, (processContent interp ctx file c).1,
    (processPath interp ctx file).2 ++ (processContent interp ctx file c).2⟩,
    ?_, ?_⟩
  · simp [processFile, htext]
  · exact processContent_fst_no_placeholder interp ctx file c hbr hpk hpj

/-- C7 witness: a `README.md` content with no placeholder forms passes
through unchanged. -/
theorem processFile_no_placeholder_roundtrip_witness :
    ∃ r, processFile interpId ordersCtx "README.md".toList
      (some "plain text, no placeholders".toList) = Except.ok r ∧
      r.output = "plain text, no placeholders".toList :=
  processFile_no_placeholder_roundtrip interpId ordersCtx "README.md".toList
    "plain text, no placeholders".toList
    (by decide) (by decide) (by decide) (by decide) (by decide)

/-- C2 counterexample: with a non-empty package name on the context, a
text file whose content is the literal token `__packageDir__` is written
back with the token intact — content rewriting never applies the
package-directory substitution. -/
theorem processContent_packageDir_in_content_untouched :
    ordersCtx.packageName ≠ [] ∧
    containsSub pkgDirTok "__packageDir__".toList = true ∧
    isTextFile "Main.java".toList = true ∧
    (processContent interpId ordersCtx "Main.java".toList
      "__packageDir__".toList).1 = "__packageDir__".toList := by
  refine ⟨by decide, by decide, by decide, ?_⟩
  decide

/-- C2 (amended): content rewriting is exactly expression interpolation,
then the `${packageName}` token, then the `${projectName}` token — there is
no package-directory pass over content, so content containing only
`__packageDir__` tokens (no other form) is left verbatim. -/
theorem processContent_stage_decomposition :
    (∀ (interp : Interp) (ctx : Ctx) (file c : List Char),
      (processContent interp ctx file c).1 =
        projectNameStage ctx (packageNameStage ctx
          (contentInterpStage interp ctx c))) ∧
    (∀ (interp : Interp) (ctx : Ctx) (file c : List Char),
      (containsSub openTok c && containsSub closeTok c) = false →
      containsSub pkgNameTok c = false →
      containsSub projNameTok c = false →
      (processContent interp ctx file c).1 = c) := by
  constructor
  · intro interp ctx file c
    simp only [processContent, contentInterpStage, packageNameStage,
      projectNameStage]
    cases hg : (containsSub openTok c && containsSub closeTok c) with
    | false => simp
    | true =>
      cases hi : interp ctx c with
      | ok s => simp [hi]
      | error m => simp [hi]
  · exact fun interp ctx file c hbr hpk hpj =>
      processContent_fst_no_placeholder interp ctx file c hbr hpk hpj

/-- C2 witness: the decomposition at the `${projectName}` example, and the
verbatim pass-through of a `__packageDir__`-bearing content. -/
theorem processContent_stage_decomposition_witness :
    (processContent interpId ordersCtx "a.yml".toList
        "server: $\x7bprojectName\x7d".toList).1 =
      projectNameStage ordersCtx (packageNameStage ordersCtx
        (contentInterpStage interpId ordersCtx
          "server: $\x7bprojectName\x7d".toList)) ∧
    (processContent interpId ordersCtx "Main.java".toList
        "package __packageDir__;".toList).1 = "package __packageDir__;".toList := by
  constructor
  · exact processContent_stage_decomposition.1 interpId ordersCtx
      "a.yml".toList "server: $\x7bprojectName\x7d".toList
  · exact processContent_stage_decomposition.2 interpId ordersCtx
      "Main.java".toList "package __packageDir__;".toList
      (by decide) (by decide) (by decide)

/-- C6: path rewriting applies only expression interpolation and the
package-directory substitution — a path exhibiting neither trigger passes
through unchanged (in particular `${projectName}`/`${packageName}` tokens
in paths are never substituted) — and the spec's example path rewrites as
stated. -/
theorem processPath_forms_one_and_three :
    (∀ (interp : Interp) (ctx : Ctx) (p : List Char),
      (containsSub openTok p && containsSub closeTok p) = false →
      containsSub pkgDirTok p = false →
      (processPath interp ctx p).1 = p) ∧
    (∀ interp : Interp,
      (processPath interp ordersCtx "__packageDir__/Main.java".toList).1 =
        "com/acme/orders/Main.java".toList) := by
  constructor
  · intro interp ctx p hbr hpd
    simp only [processPath, hbr, Bool.false_eq_true, if_false]
    simp [hpd]
  · intro interp
    rfl

/-- C6 witness: a path carrying a literal `${projectName}` token is left
alone, and `__packageDir__/Main.java` becomes `com/acme/orders/Main.java`. -/
theorem processPath_forms_one_and_three_witness :
    (processPath interpId ordersCtx "$\x7bprojectName\x7d/app.txt".toList).1 =
      "$\x7bprojectName\x7d/app.txt".toList ∧
    (processPath interpId ordersCtx "__packageDir__/Main.java".toList).1 =
      "com/acme/orders/Main.java".toList :=
  ⟨processPath_forms_one_and_three.1 interpId ordersCtx
      "$\x7bprojectName\x7d/app.txt".toList (by decide) (by decide),
   processPath_forms_one_and_three.2 interpId⟩

/-- C8: when interpolation throws (absent field, malformed span), the
engine keeps the file's text exactly as an identity interpolation would
have (the original text flows into the literal-token passes), records the
recoverable warning, and `processFile` still succeeds. -/
theorem interp_failure_recovers (interp : Interp) (ctx : Ctx)
    (file c m : List Char)
    (hfail : interp ctx c = Except.error m)
    (hguard : (containsSub openTok c && containsSub closeTok c) = true)
    (htext : isTextFile file = true) :
    processContent interp ctx file c =
      ((processContent interpId ctx file c).1, [Warn.contentInterp file m]) ∧
    ∃ r, processFile interp ctx file (some c) = Except.ok r ∧
      Warn.contentInterp file m ∈ r.warnings := by
  have hcontent : processContent interp ctx file c =
      ((processContent interpId ctx file c).1, [Warn.contentInterp file m]) := by
    simp only [processContent, hguard, if_true, hfail, interpId]
  refine ⟨hcontent, ⟨(processPath interp ctx file).1,
    (processContent interp ctx file c).1,
    (processPath interp ctx file).2 ++ (processContent interp ctx file c).2⟩,
    ?_, ?_⟩
  · simp [processFile, htext]
  · apply List.mem_append_right
    rw [hcontent]
    exact List.mem_singleton.2 rfl

/-- C8 witness: a throwing interpolator on `\x7b\x7bx\x7d\x7d` content in
`a.md` warns and the file is still processed. -/
theorem interp_failure_recovers_witness :
    processContent interpBoom ordersCtx "a.md".toList "\x7b\x7bx\x7d\x7d".toList =
      ((processContent interpId ordersCtx "a.md".toList
        "\x7b\x7bx\x7d\x7d".toList).1,
       [Warn.contentInterp "a.md".toList "boom".toList]) ∧
    ∃ r, processFile interpBoom ordersCtx "a.md".toList
        (some "\x7b\x7bx\x7d\x7d".toList) = Except.ok r ∧
      Warn.contentInterp "a.md".toList "boom".toList ∈ r.warnings :=
  interp_failure_recovers interpBoom ordersCtx "a.md".toList
    "\x7b\x7bx\x7d\x7d".toList "boom".toList rfl (by decide) (by decide)

/-!
### Dependency-before-dependent ordering on acyclic registries (C3)

Acyclicity is taken as a rank function decreasing along registered
dependency edges (for a finite graph this is equivalent to having no
cycle).  `InvE` is carried through the traversal; `E` is the chain of
names currently being expanded, whose ranks strictly dominate everything
processed beneath them.
-/

theorem append_singleton_cases {α : Type _} {l l₁ l₂ : List α} {m n : α}
    (h : l ++ [n] = l₁ ++ m :: l₂) :
    (l₁ = l ∧ m = n ∧ l₂ = []) ∨
      ∃ l₂', l = l₁ ++ m :: l₂' ∧ l₂ = l₂' ++ [n] := by
  induction l₁ generalizing l with
  | nil =>
    cases l with
    | nil =>
      simp only [List.nil_append] at h
      cases h
      exact Or.inl ⟨rfl, rfl, rfl⟩
    | cons a l' =>
      simp only [List.cons_append, List.nil_append] at h
      cases h
      exact Or.inr ⟨l', rfl, rfl⟩
  | cons b l₁' ih =>
    cases l with
    | nil =>
      have h' : [n] = b :: (l₁' ++ m :: l₂) := by simpa using h
      have h2 := (List.cons.inj h').2
      exact absurd h2.symm (by simp)
    | cons a l' =>
      have h' : a :: (l' ++ [n]) = b :: (l₁' ++ m :: l₂) := by simpa using h
      obtain ⟨hab, h2⟩ := List.cons.inj h'
      rcases ih h2 with ⟨hl, hm, he⟩ | ⟨l₂', he1, he2⟩
      · exact Or.inl ⟨by rw [hab, hl], hm, he⟩
      · exact Or.inr ⟨l₂', by rw [hab, he1, List.cons_append], he2⟩

theorem orderedDeps_nil (reg : Registry) : orderedDeps reg [] := by
  intro l₁ m l₂ h
  exact absurd h.symm (by simp)

theorem orderedDeps_append {reg : Registry} {l : List String} {n : String}
    (h : orderedDeps reg l)
    (hn : ∀ d ∈ depsIn reg n, hasPlugin reg d = true → d ∈ l) :
    orderedDeps reg (l ++ [n]) := by
  intro l₁ m l₂ hsplit d hd hreg
  rcases append_singleton_cases hsplit with ⟨hl1, hm, _⟩ | ⟨l₂', he1, _⟩
  · subst hl1
    subst hm
    exact hn d hd hreg
  · exact h l₁ m l₂' he1 d hd hreg

theorem visitList_inv (reg : Registry) (rank : String → Nat) (f : Nat)
    (hv : ∀ n s s' E, visit reg f n s = some s' →
      (∀ e ∈ E, hasPlugin reg n = true → rank n < rank e) →
      InvE reg E s → InvE reg E s') :
    ∀ ns s s' E, visitList (visit reg f) ns s = some s' →
      (∀ e ∈ E, ∀ x ∈ ns, hasPlugin reg x = true → rank x < rank e) →
      InvE reg E s → InvE reg E s' := by
  intro ns
  induction ns with
  | nil =>
    intro s s' E h _ hi
    rw [visitList] at h
    cases h
    exact hi
  | cons n rest ih =>
    intro s s' E h hE hi
    rw [visitList] at h
    cases ht : visit reg f n s with
    | none => rw [ht] at h; cases h
    | some t =>
      rw [ht] at h
      have hit := hv n s t E ht
        (fun e he hr => hE e he n (List.mem_cons_self _ _) hr) hi
      exact ih t s' E h
        (fun e he x hx hr => hE e he x (List.mem_cons_of_mem _ hx) hr) hit

theorem visit_inv (reg : Registry) (rank : String → Nat)
    (hrank : ∀ e ∈ reg, ∀ d ∈ e.2.dependencies,
      hasPlugin reg d = true → rank d < rank e.1) :
    ∀ f n s s' E, visit reg f n s = some s' →
      (∀ e ∈ E, hasPlugin reg n = true → rank n < rank e) →
      InvE reg E s → InvE reg E s' := by
  intro f
  induction f with
  | zero =>
    intro n s s' E h hE hi
    by_cases hvis : n ∈ s.visited
    · rw [visit_eq_of_visited reg 0 hvis] at h
      cases h
      exact hi
    · cases hl : lookupReg reg n with
      | none =>
        rw [visit_eq_of_none reg 0 hvis hl] at h
        cases h
        obtain ⟨hnd, hsub, hregd, hvisres, hord⟩ := hi
        refine ⟨hnd, fun m hm => List.mem_cons_of_mem _ (hsub m hm), hregd,
          ?_, hord⟩
        intro m hm hr
        rcases List.mem_cons.1 hm with hmn | hm'
        · subst hmn
          rw [hasPlugin, hl] at hr
          simp at hr
        · exact hvisres m hm' hr
      | some p =>
        rw [visit_zero_eq reg hvis hl] at h
        cases h
  | succ f ih =>
    intro n s s' E h hE hi
    by_cases hvis : n ∈ s.visited
    · rw [visit_eq_of_visited reg (f + 1) hvis] at h
      cases h
      exact hi
    · cases hl : lookupReg reg n with
      | none =>
        rw [visit_eq_of_none reg (f + 1) hvis hl] at h
        cases h
        obtain ⟨hnd, hsub, hregd, hvisres, hord⟩ := hi
        refine ⟨hnd, fun m hm => List.mem_cons_of_mem _ (hsub m hm), hregd,
          ?_, hord⟩
        intro m hm hr
        rcases List.mem_cons.1 hm with hmn | hm'
        · subst hmn
          rw [hasPlugin, hl] at hr
          simp at hr
        · exact hvisres m hm' hr
      | some p =>
        rw [visit_succ_eq reg f hvis hl] at h
        cases h2 : visitList (visit reg f) p.dependencies
          ⟨n :: s.visited, s.result⟩ with
        | none => rw [h2] at h; cases h
        | some s2 =>
          rw [h2] at h
          dsimp only at h
          obtain ⟨o2, hdeps⟩ := visitList_out
            (fun a b c hh => visit_out reg f a b c hh) p.dependencies _ s2 h2
          obtain ⟨hnd, hsub, hregd, hvisres, hord⟩ := hi
          have hinv1 : InvE reg (n :: E) ⟨n :: s.visited, s.result⟩ := by
            refine ⟨hnd, fun m hm => List.mem_cons_of_mem _ (hsub m hm), hregd,
              ?_, hord⟩
            intro m hm hr
            rcases List.mem_cons.1 hm with hmn | hm'
            · subst hmn
              exact Or.inr (List.mem_cons_self _ _)
            · rcases hvisres m hm' hr with hres | hE'
              · exact Or.inl hres
              · exact Or.inr (List.mem_cons_of_mem _ hE')
          have hmemreg : (n, p) ∈ reg := lookupReg_mem hl
          have hregn : hasPlugin reg n = true := hasPlugin_of_lookup hl
          have hEdeps : ∀ e ∈ n :: E, ∀ x ∈ p.dependencies,
              hasPlugin reg x = true → rank x < rank e := by
            intro e he x hx hrx
            rcases List.mem_cons.1 he with hen | heE
            · have hx' := hrank (n, p) hmemreg x hx hrx
              rw [hen]
              exact hx'
            · exact lt_trans (hrank (n, p) hmemreg x hx hrx) (hE e heE hregn)
          have hinv2 : InvE reg (n :: E) s2 :=
            visitList_inv reg rank f ih p.dependencies _ s2 (n :: E) h2
              hEdeps hinv1
          have hn2 : n ∉ s2.result := by
            intro hin
            rcases o2.2.1 n hin with hold | hnv
            · exact hvis (hsub n hold)
            · exact hnv (List.mem_cons_self _ _)
          rw [if_neg hn2] at h
          cases h
          obtain ⟨hnd2, hsub2, hregd2, hvisres2, hord2⟩ := hinv2
          refine ⟨?_, ?_, ?_, ?_, ?_⟩
          · simp [List.nodup_append, hnd2, hn2]
          · intro m hm
            rcases List.mem_append.1 hm with hm | hm
            · exact hsub2 m hm
            · have hmn : m = n := by simpa using hm
              subst hmn
              exact o2.1 m (List.mem_cons_self _ _)
          · intro m hm
            rcases List.mem_append.1 hm with hm | hm
            · exact hregd2 m hm
            · have hmn : m = n := by simpa using hm
              subst hmn
              exact hregn
          · intro m hm hr
            rcases hvisres2 m hm hr with hres | hEm
            · exact Or.inl (List.mem_append_left _ hres)
            · rcases List.mem_cons.1 hEm with hmn | hmE
              · subst hmn
                exact Or.inl (List.mem_append_right _ (List.mem_singleton.2 rfl))
              · exact Or.inr hmE
          · apply orderedDeps_append hord2
            intro d hd hrd
            rw [depsIn, hl] at hd
            have hdvis : d ∈ s2.visited := hdeps d hd
            rcases hvisres2 d hdvis hrd with hres | hdE
            · exact hres
            · have hdn : rank d < rank n := hrank (n, p) hmemreg d hd hrd
              rcases List.mem_cons.1 hdE with hdn' | hdE'
              · subst hdn'
                exact absurd hdn (lt_irrefl _)
              · have hnd' := hE d hdE' hregn
                omega

/-- C3: on a registry whose dependency graph is acyclic (witnessed by a
rank decreasing along its registered edges) and closed (every declared
dependency is registered), the computed order lists every dependency
strictly before its dependent, contains no duplicate, and contains every
registered requested name. -/
theorem getPluginsInDependencyOrder_acyclic_ordered
    (reg : Registry) (rank : String → Nat) (names : List String)
    (hrank : ∀ e ∈ reg, ∀ d ∈ e.2.dependencies,
      hasPlugin reg d = true → rank d < rank e.1)
    (hclosed : ∀ e ∈ reg, ∀ d ∈ e.2.dependencies, hasPlugin reg d = true) :
    ∃ l, getPluginsInDependencyOrder reg names = some l ∧ l.Nodup ∧
      (∀ l₁ m l₂, l = l₁ ++ m :: l₂ → ∀ d ∈ depsIn reg m, d ∈ l₁) ∧
      (∀ x ∈ names, hasPlugin reg x = true → x ∈ l) := by
  obtain ⟨s', hs', _, _, hcov, _⟩ := gpido_run reg names
  have hinv0 : InvE reg [] ⟨[], []⟩ :=
    ⟨List.nodup_nil, by simp, by simp, by simp, orderedDeps_nil reg⟩
  have hinv := visitList_inv reg rank reg.length
    (visit_inv reg rank hrank reg.length) names ⟨[], []⟩ s' [] hs'
    (by simp) hinv0
  obtain ⟨hnd', hsub', hregd', hvisres', hord'⟩ := hinv
  refine ⟨s'.result, by simp [getPluginsInDependencyOrder, hs'], hnd', ?_, ?_⟩
  · intro l₁ m l₂ hsplit d hd
    have hm : m ∈ s'.result := by
      rw [hsplit]
      exact List.mem_append_right _ (List.mem_cons_self _ _)
    obtain ⟨p, hp⟩ := lookup_of_hasPlugin (hregd' m hm)
    have hdreg : hasPlugin reg d = true := by
      apply hclosed (m, p) (lookupReg_mem hp)
      rw [depsIn, hp] at hd
      exact hd
    exact hord' l₁ m l₂ hsplit d hd hdreg
  · intro x hx hxreg
    rcases hvisres' x (hcov x hx) hxreg with h | h
    · exact h
    · simp at h

/-- C3 witness: on `a → b` with the duplicate request `["a", "a"]` the
theorem instantiates with rank `b ↦ 0, _ ↦ 1`. -/
theorem getPluginsInDependencyOrder_acyclic_ordered_witness :
    ∃ l, getPluginsInDependencyOrder chainReg ["a", "a"] = some l ∧
      l.Nodup ∧
      (∀ l₁ m l₂, l = l₁ ++ m :: l₂ → ∀ d ∈ depsIn chainReg m, d ∈ l₁) ∧
      (∀ x ∈ ["a", "a"], hasPlugin chainReg x = true → x ∈ l) :=
  getPluginsInDependencyOrder_acyclic_ordered chainReg
    (fun n => if n = "b" then 0 else 1) ["a", "a"] (by decide) (by decide)

/-!
### `resolveDependencies` (C4)
-/

theorem rd_eq_of_visited (reg : Registry) (f : Nat) {name : String}
    {visited : List String} (h : name ∈ visited) :
    resolveDependencies reg f name visited =
      some (Except.error (RegErr.circular name)) := by
  simp [resolveDependencies, h]

theorem rd_eq_of_notFound (reg : Registry) (f : Nat) {name : String}
    {visited : List String} (h : name ∉ visited)
    (hl : lookupReg reg name = none) :
    resolveDependencies reg f name visited =
      some (Except.error (RegErr.notFound name)) := by
  simp [resolveDependencies, h, hl]

theorem rd_zero_eq (reg : Registry) {name : String} {visited : List String}
    {p : Plugin} (h : name ∉ visited) (hl : lookupReg reg name = some p) :
    resolveDependencies reg 0 name visited = none := by
  simp [resolveDependencies, h, hl]

theorem rd_succ_eq (reg : Registry) (f : Nat) {name : String}
    {visited : List String} {p : Plugin} (h : name ∉ visited)
    (hl : lookupReg reg name = some p) :
    resolveDependencies reg (f + 1) name visited =
      resolveList reg (fun d => resolveDependencies reg f d (name :: visited))
        name p.dependencies := by
  conv_lhs => rw [resolveDependencies]
  rw [if_neg h, hl]

theorem resolveList_some {reg : Registry}
    {check1 : String → Option (Except RegErr Unit)} {parent : String}
    (hs : ∀ d, ∃ r, check1 d = some r) :
    ∀ ds, ∃ r, resolveList reg check1 parent ds = some r := by
  intro ds
  induction ds with
  | nil => exact ⟨Except.ok (), rfl⟩
  | cons d rest ih =>
    by_cases hp : hasPlugin reg d = true
    · obtain ⟨r, hr⟩ := hs d
      cases r with
      | error e =>
        refine ⟨Except.error e, ?_⟩
        rw [resolveList, if_pos hp, hr]
      | ok u =>
        cases u
        obtain ⟨r', hr'⟩ := ih
        refine ⟨r', ?_⟩
        rw [resolveList, if_pos hp, hr]
        exact hr'
    · refine ⟨Except.error (RegErr.unresolved d parent), ?_⟩
      rw [resolveList, if_neg hp]

theorem resolveDependencies_some (reg : Registry) :
    ∀ f name visited, countNew reg visited ≤ f →
      ∃ r, resolveDependencies reg f name visited = some r := by
  intro f
  induction f with
  | zero =>
    intro name visited hc
    by_cases hv : name ∈ visited
    · exact ⟨_, rd_eq_of_visited reg 0 hv⟩
    · cases hl : lookupReg reg name with
      | none => exact ⟨_, rd_eq_of_notFound reg 0 hv hl⟩
      | some p =>
        have := countNew_pos hl hv
        omega
  | succ f ih =>
    intro name visited hc
    by_cases hv : name ∈ visited
    · exact ⟨_, rd_eq_of_visited reg (f + 1) hv⟩
    · cases hl : lookupReg reg name with
      | none => exact ⟨_, rd_eq_of_notFound reg (f + 1) hv hl⟩
      | some p =>
        have hlt := countNew_lt hl hv
        obtain ⟨r, hr⟩ := resolveList_some
          (fun d => ih d (name :: visited) (by omega)) p.dependencies
        exact ⟨r, by rw [rd_succ_eq reg f hv hl]; exact hr⟩

theorem resolveList_ok {reg : Registry}
    {check1 : String → Option (Except RegErr Unit)} {parent : String} :
    ∀ {ds}, resolveList reg check1 parent ds = some (Except.ok ()) →
      ∀ d ∈ ds, hasPlugin reg d = true ∧ check1 d = some (Except.ok ()) := by
  intro ds
  induction ds with
  | nil => intro _ d hd; simp at hd
  | cons d0 rest ih =>
    intro h d hd
    rw [resolveList] at h
    by_cases hp : hasPlugin reg d0 = true
    · rw [if_pos hp] at h
      cases hc : check1 d0 with
      | none => rw [hc] at h; cases h
      | some r =>
        rw [hc] at h
        cases r with
        | error e => simp at h
        | ok u =>
          cases u
          rcases List.mem_cons.1 hd with hd0 | hdr
          · subst hd0
            exact ⟨hp, hc⟩
          · exact ih h d hdr
    · rw [if_neg hp] at h
      simp at h

theorem resolveDependencies_ok_complete (reg : Registry) :
    ∀ f name visited,
      resolveDependencies reg f name visited = some (Except.ok ()) →
      ∀ tgt, DepPath reg name tgt → ∀ p, lookupReg reg tgt = some p →
        ∀ d ∈ p.dependencies, hasPlugin reg d = true := by
  intro f
  induction f with
  | zero =>
    intro name visited h tgt hpath p hp d hd
    by_cases hv : name ∈ visited
    · rw [rd_eq_of_visited reg 0 hv] at h
      simp at h
    · cases hl : lookupReg reg name with
      | none =>
        rw [rd_eq_of_notFound reg 0 hv hl] at h
        simp at h
      | some q =>
        rw [rd_zero_eq reg hv hl] at h
        cases h
  | succ f ih =>
    intro name visited h tgt hpath p hp d hd
    by_cases hv : name ∈ visited
    · rw [rd_eq_of_visited reg (f + 1) hv] at h
      simp at h
    · cases hl : lookupReg reg name with
      | none =>
        rw [rd_eq_of_notFound reg (f + 1) hv hl] at h
        simp at h
      | some q =>
        rw [rd_succ_eq reg f hv hl] at h
        have hall := resolveList_ok h
        cases hpath with
        | refl =>
          rw [hp] at hl
          cases hl
          exact (hall d hd).1
        | step h' hd' tail =>
          rw [h'] at hl
          cases hl
          exact ih _ (name :: visited) (hall _ hd').2 tgt tail p hp d hd

theorem resolveList_unresolved {reg : Registry}
    {check1 : String → Option (Except RegErr Unit)} {parent d par : String} :
    ∀ {ds}, resolveList reg check1 parent ds =
        some (Except.error (RegErr.unresolved d par)) →
      (d ∈ ds ∧ par = parent ∧ hasPlugin reg d = false) ∨
        ∃ d0 ∈ ds, hasPlugin reg d0 = true ∧
          check1 d0 = some (Except.error (RegErr.unresolved d par)) := by
  intro ds
  induction ds with
  | nil => intro h; simp [resolveList] at h
  | cons d0 rest ih =>
    intro h
    rw [resolveList] at h
    by_cases hp : hasPlugin reg d0 = true
    · rw [if_pos hp] at h
      cases hc : check1 d0 with
      | none => rw [hc] at h; cases h
      | some r =>
        rw [hc] at h
        cases r with
        | error e =>
          have he : e = RegErr.unresolved d par := by
            have := Option.some.inj h
            exact (Except.error.inj this)
          subst he
          exact Or.inr ⟨d0, List.mem_cons_self _ _, hp, hc⟩
        | ok u =>
          cases u
          rcases ih h with ⟨hmem, hpar, hmiss⟩ | ⟨d1, hmem, hreg1, hc1⟩
          · exact Or.inl ⟨List.mem_cons_of_mem _ hmem, hpar, hmiss⟩
          · exact Or.inr ⟨d1, List.mem_cons_of_mem _ hmem, hreg1, hc1⟩
    · rw [if_neg hp] at h
      have he := Except.error.inj (Option.some.inj h)
      have hd0 : d0 = d := (RegErr.unresolved.inj he).1
      have hpar : parent = par := (RegErr.unresolved.inj he).2
      subst hd0
      refine Or.inl ⟨List.mem_cons_self _ _, hpar.symm, ?_⟩
      simpa using hp

theorem resolveDependencies_unresolved_sound (reg : Registry) :
    ∀ f name visited d par,
      resolveDependencies reg f name visited =
        some (Except.error (RegErr.unresolved d par)) →
      hasPlugin reg d = false ∧ DepPath reg name par ∧
        ∃ p, lookupReg reg par = some p ∧ d ∈ p.dependencies := by
  intro f
  induction f with
  | zero =>
    intro name visited d par h
    by_cases hv : name ∈ visited
    · rw [rd_eq_of_visited reg 0 hv] at h
      simp at h
    · cases hl : lookupReg reg name with
      | none =>
        rw [rd_eq_of_notFound reg 0 hv hl] at h
        simp at h
      | some q =>
        rw [rd_zero_eq reg hv hl] at h
        cases h
  | succ f ih =>
    intro name visited d par h
    by_cases hv : name ∈ visited
    · rw [rd_eq_of_visited reg (f + 1) hv] at h
      simp at h
    · cases hl : lookupReg reg name with
      | none =>
        rw [rd_eq_of_notFound reg (f + 1) hv hl] at h
        simp at h
      | some q =>
        rw [rd_succ_eq reg f hv hl] at h
        rcases resolveList_unresolved h with
          ⟨hmem, hpar, hmiss⟩ | ⟨d0, hmem, hreg0, hcall⟩
        · subst hpar
          exact ⟨hmiss, DepPath.refl _, q, hl, hmem⟩
        · obtain ⟨hmiss, hpath, p, hp, hdp⟩ := ih d0 (name :: visited) d par hcall
          exact ⟨hmiss, DepPath.step hl hmem hpath, p, hp, hdp⟩

theorem resolveList_no_circular {reg : Registry}
    {check1 : String → Option (Except RegErr Unit)} {parent c : String} :
    ∀ {ds}, (∀ d ∈ ds, hasPlugin reg d = true →
        check1 d ≠ some (Except.error (RegErr.circular c))) →
      resolveList reg check1 parent ds ≠
        some (Except.error (RegErr.circular c)) := by
  intro ds
  induction ds with
  | nil => intro _ h; simp [resolveList] at h
  | cons d0 rest ih =>
    intro hs h
    rw [resolveList] at h
    by_cases hp : hasPlugin reg d0 = true
    · rw [if_pos hp] at h
      cases hc : check1 d0 with
      | none => rw [hc] at h; cases h
      | some r =>
        rw [hc] at h
        cases r with
        | error e =>
          have he : e = RegErr.circular c := Except.error.inj (Option.some.inj h)
          subst he
          exact hs d0 (List.mem_cons_self _ _) hp hc
        | ok u =>
          cases u
          exact ih (fun d hd => hs d (List.mem_cons_of_mem _ hd)) h
    · rw [if_neg hp] at h
      simp at h

theorem depPath_snoc {reg : Registry} {a b d : String} {p : Plugin}
    (hab : DepPath reg a b) (hb : lookupReg reg b = some p)
    (hd : d ∈ p.dependencies) : DepPath reg a d := by
  induction hab with
  | refl n => exact DepPath.step hb hd (DepPath.refl d)
  | step h hd' _ ih => exact DepPath.step h hd' (ih hb)

theorem resolveDependencies_no_circular (reg : Registry) (rank : String → Nat)
    (root : String)
    (hrank : ∀ m, DepPath reg root m → ∀ p, lookupReg reg m = some p →
      ∀ d ∈ p.dependencies, hasPlugin reg d = true → rank d < rank m) :
    ∀ f name visited c, DepPath reg root name →
      (∀ v ∈ visited, rank name < rank v) →
      resolveDependencies reg f name visited ≠
        some (Except.error (RegErr.circular c)) := by
  intro f
  induction f with
  | zero =>
    intro name visited c _ hvr h
    have hnv : name ∉ visited := fun hmem => lt_irrefl _ (hvr name hmem)
    cases hl : lookupReg reg name with
    | none =>
      rw [rd_eq_of_notFound reg 0 hnv hl] at h
      simp at h
    | some q =>
      rw [rd_zero_eq reg hnv hl] at h
      cases h
  | succ f ih =>
    intro name visited c hreach hvr h
    have hnv : name ∉ visited := fun hmem => lt_irrefl _ (hvr name hmem)
    cases hl : lookupReg reg name with
    | none =>
      rw [rd_eq_of_notFound reg (f + 1) hnv hl] at h
      simp at h
    | some q =>
      rw [rd_succ_eq reg f hnv hl] at h
      refine resolveList_no_circular ?_ h
      intro d hd hp
      apply ih d (name :: visited) c (depPath_snoc hreach hl hd)
      intro v hv
      rcases List.mem_cons.1 hv with hvn | hvv
      · subst hvn
        exact hrank v hreach q hl d hd hp
      · exact lt_trans (hrank name hreach q hl d hd hp) (hvr v hvv)

theorem resolveList_no_notFound {reg : Registry}
    {check1 : String → Option (Except RegErr Unit)} {parent c : String} :
    ∀ {ds}, (∀ d ∈ ds, hasPlugin reg d = true →
        check1 d ≠ some (Except.error (RegErr.notFound c))) →
      resolveList reg check1 parent ds ≠
        some (Except.error (RegErr.notFound c)) := by
  intro ds
  induction ds with
  | nil => intro _ h; simp [resolveList] at h
  | cons d0 rest ih =>
    intro hs h
    rw [resolveList] at h
    by_cases hp : hasPlugin reg d0 = true
    · rw [if_pos hp] at h
      cases hc : check1 d0 with
      | none => rw [hc] at h; cases h
      | some r =>
        rw [hc] at h
        cases r with
        | error e =>
          have he : e = RegErr.notFound c := Except.error.inj (Option.some.inj h)
          subst he
          exact hs d0 (List.mem_cons_self _ _) hp hc
        | ok u =>
          cases u
          exact ih (fun d hd => hs d (List.mem_cons_of_mem _ hd)) h
    · rw [if_neg hp] at h
      simp at h

theorem resolveDependencies_no_notFound (reg : Registry) :
    ∀ f name visited c, hasPlugin reg name = true →
      resolveDependencies reg f name visited ≠
        some (Except.error (RegErr.notFound c)) := by
  intro f
  induction f with
  | zero =>
    intro name visited c hreg h
    by_cases hv : name ∈ visited
    · rw [rd_eq_of_visited reg 0 hv] at h
      simp at h
    · cases hl : lookupReg reg name with
      | none =>
        rw [hasPlugin, hl] at hreg
        simp at hreg
      | some q =>
        rw [rd_zero_eq reg hv hl] at h
        cases h
  | succ f ih =>
    intro name visited c hreg h
    by_cases hv : name ∈ visited
    · rw [rd_eq_of_visited reg (f + 1) hv] at h
      simp at h
    · cases hl : lookupReg reg name with
      | none =>
        rw [hasPlugin, hl] at hreg
        simp at hreg
      | some q =>
        rw [rd_succ_eq reg f hv hl] at h
        refine resolveList_no_notFound ?_ h
        intro d hd hp
        exact ih d (name :: visited) c hp

/-- C4 counterexample: in the registry `{a ↦ deps [a, x]}` the transitive
dependency set of the registered `a` references the unregistered `x`, yet
`resolveDependencies("a")` throws the circular error about `a` — an error
that does not identify the unresolved name `x`. -/
theorem resolveDependencies_cycle_masks_missing :
    lookupReg selfLoopReg "x" = none ∧
    lookupReg selfLoopReg "a" = some pluginAX ∧
    "x" ∈ pluginAX.dependencies ∧
    resolveDependenciesTop selfLoopReg "a" =
      some (Except.error (RegErr.circular "a")) := by
  refine ⟨by decide, by decide, by decide, ?_⟩
  rfl

/-- C4 (amended): whenever a registered plugin's direct or transitive
dependency set references an unregistered name, `resolveDependencies`
raises an error — it never silently succeeds, for every registry, cyclic
or not; and whenever the dependency subgraph reachable from that plugin is
acyclic (a rank decreasing along the reachable registered edges — cycles
elsewhere in the registry are irrelevant), the error is precisely an
unresolved-dependency error naming an unregistered dependency and the
reachable plugin that declares it. -/
theorem resolveDependencies_missing_dep_unresolved
    (reg : Registry) (name tgt dm : String) (q : Plugin)
    (hname : hasPlugin reg name = true)
    (hpath : DepPath reg name tgt) (htgt : lookupReg reg tgt = some q)
    (hdm : dm ∈ q.dependencies) (hmiss : hasPlugin reg dm = false) :
    (∃ e, resolveDependenciesTop reg name = some (Except.error e)) ∧
    (∀ rank : String → Nat,
      (∀ m, DepPath reg name m → ∀ p, lookupReg reg m = some p →
        ∀ d ∈ p.dependencies, hasPlugin reg d = true → rank d < rank m) →
      ∃ d par p, resolveDependenciesTop reg name =
          some (Except.error (RegErr.unresolved d par)) ∧
        hasPlugin reg d = false ∧ DepPath reg name par ∧
        lookupReg reg par = some p ∧ d ∈ p.dependencies) := by
  obtain ⟨r, hr⟩ := resolveDependencies_some reg reg.length name []
    (countNew_le_length reg [])
  have hnotok : r ≠ Except.ok () := by
    intro hok
    subst hok
    have := resolveDependencies_ok_complete reg reg.length name [] hr
      tgt hpath q htgt dm hdm
    rw [this] at hmiss
    cases hmiss
  constructor
  · cases r with
    | ok u => cases u; exact absurd rfl hnotok
    | error e => exact ⟨e, hr⟩
  · intro rank hrank
    cases r with
    | ok u => cases u; exact absurd rfl hnotok
    | error e =>
      cases e with
      | circular c =>
        exact absurd hr
          (resolveDependencies_no_circular reg rank name hrank reg.length
            name [] c (DepPath.refl name) (by simp))
      | notFound c =>
        exact absurd hr
          (resolveDependencies_no_notFound reg reg.length name [] c hname)
      | unresolved d par =>
        obtain ⟨hf, hp, p, hpp, hdp⟩ :=
          resolveDependencies_unresolved_sound reg reg.length name [] d par hr
        exact ⟨d, par, p, hr, hf, hp, hpp, hdp⟩

/-- C4 witness: on `a → b → x` with `x` unregistered, the theorem applies
along the path `a → b`; both conjuncts are delivered at this instance. -/
theorem resolveDependencies_missing_dep_unresolved_witness :
    (∃ e, resolveDependenciesTop missingDepReg "a" =
      some (Except.error e)) ∧
    (∀ rank : String → Nat,
      (∀ m, DepPath missingDepReg "a" m →
        ∀ p, lookupReg missingDepReg m = some p →
        ∀ d ∈ p.dependencies, hasPlugin missingDepReg d = true →
          rank d < rank m) →
      ∃ d par p, resolveDependenciesTop missingDepReg "a" =
          some (Except.error (RegErr.unresolved d par)) ∧
        hasPlugin missingDepReg d = false ∧ DepPath missingDepReg "a" par ∧
        lookupReg missingDepReg par = some p ∧ d ∈ p.dependencies) :=
  resolveDependencies_missing_dep_unresolved missingDepReg "a" "b" "x"
    pluginBX (by decide)
    (@DepPath.step missingDepReg "a" "b" "b" pluginA (by decide) (by decide)
      (DepPath.refl "b"))
    (by decide) (by decide) (by decide)

end PlatformCli
